import Mathlib

/-!
# Verification of the deromanize core (prefix trees, replacement algebra,
pattern expansion, front-mid-end decoding)

This file is a shallow embedding of `deromanize/trees.py`,
`deromanize/keygenerator.py` and `deromanize/tools.py`.

Conventions of the embedding:

* Python strings used as trie keys are embedded as `List Char` (the code
  iterates over them character by character); other strings stay `String`.
* The sentinel for "no value stored at this node" (`...` in `trees.py`,
  `empty` in `classes.py`/the imports of `keygenerator.py`) is embedded as
  `Option`: `none` is the sentinel, `some v` a stored value.
* A Python `dict` of children is embedded as an association list
  `List (Char × TrieNode V)`; Python dicts preserve insertion order, which
  the association list mirrors (updates keep the original position, new
  keys are appended at the end).
* Raising `KeyError` is embedded as returning `none` (`Option`) or
  `Except.error` where the error message matters.
-/

/-- A node of `trees.Trie`: the pair `[value, children]`, where `value` is
the `...` sentinel (`none`) or a stored value. -/
inductive TrieNode (V : Type) where
  | node : Option V → List (Char × TrieNode V) → TrieNode V

namespace TrieNode

variable {V : Type}

/-- The stored value of a node (`node[0]`). -/
def val : TrieNode V → Option V
  | .node v _ => v

/-- The children dictionary of a node (`node[1]`). -/
def children : TrieNode V → List (Char × TrieNode V)
  | .node _ cs => cs

/-- Python `node[1][char]`: look a child up in the children dict, `none` embeds the
`KeyError`. -/
def getChild : List (Char × TrieNode V) → Char → Option (TrieNode V)
  | [], _ => none
  | (c', t) :: rest, c => if c' = c then some t else getChild rest c

/-- Python `node[1][char] = child`: replace the binding in place (Python dicts keep
the original insertion position on value update) or append a new binding. -/
def setChild : List (Char × TrieNode V) → Char → TrieNode V → List (Char × TrieNode V)
  | [], c, t => [(c, t)]
  | (c', t') :: rest, c, t =>
    if c' = c then (c, t) :: rest else (c', t') :: setChild rest c t

/-- Python `del node[1][char]`. -/
def delChild : List (Char × TrieNode V) → Char → List (Char × TrieNode V)
  | [], _ => []
  | (c', t') :: rest, c => if c' = c then rest else (c', t') :: delChild rest c

/-- Python `Trie._getnode`: follow the path spelled by `key`; `none` embeds the
`KeyError` raised on a missing child. -/
def findNode (t : TrieNode V) : List Char → Option (TrieNode V)
  | [] => some t
  | c :: rest =>
    match getChild t.children c with
    | none => none
    | some child => child.findNode rest

/-- The value stored at the node reached by `key`: the behaviour of
`Trie.__getitem__`, with `none` for both kinds of `KeyError` (missing node,
or node whose value is the sentinel). -/
def valueAt (t : TrieNode V) (key : List Char) : Option V :=
  (t.findNode key).bind val

/-- Python `Trie._mknode` followed by the value assignment of `Trie.__setitem__`:
follow (and create, with the `setdefault` of `_mknode`) all intermediate
nodes and store `v` at the end of the path. -/
def insert : TrieNode V → List Char → V → TrieNode V
  | .node _ cs, [], v => .node (some v) cs
  | .node val cs, c :: rest, v =>
    let child := (getChild cs c).getD (.node none [])
    .node val (setChild cs c (child.insert rest v))

/-- The loop of `Trie.getpart`: walk down the path spelled by `key`,
breaking at the first missing child, and remember in the accumulator the
deepest node with a set value together with the key's unconsumed suffix at
that point (`value, remainder = node[0], key[i + 1:]`). -/
def getpartAux : TrieNode V → List Char → Option (V × List Char) → Option (V × List Char)
  | _, [], best => best
  | t, c :: rest, best =>
    match getChild t.children c with
    | none => best
    | some child =>
      getpartAux child rest
        (match child.val with
         | some w => some (w, rest)
         | none => best)

/-- Python `Trie.getpart`: longest-prefix match.  Returns the value of the deepest
set-value node along the key's path together with the unconsumed suffix;
`none` embeds the final `raise KeyError(key)`. -/
def getpart (t : TrieNode V) (key : List Char) : Option (V × List Char) :=
  getpartAux t key none

/-- Accumulator-free description of the same loop, used for the proofs:
the deepest successful match wins. -/
def gpRec : TrieNode V → List Char → Option (V × List Char)
  | _, [] => none
  | t, c :: rest =>
    match getChild t.children c with
    | none => none
    | some child =>
      match gpRec child rest with
      | some r => some r
      | none => child.val.map (fun w => (w, rest))

/-- The loop of `Trie.getallparts`, with the fuel making the recursion
structural.  Each successful `getpart` consumes at least one character
(proved in `getpart_length_lt` below), so with `fuel = key.length` the fuel
never runs out before the remainder is empty and the definition agrees with
the source's `while remainder:` loop. -/
def getallpartsF : Nat → TrieNode V → List Char → Option (List V)
  | _, _, [] => some []
  | 0, _, _ => none
  | fuel + 1, t, key =>
    match t.getpart key with
    | none => none
    | some (v, rem) => (getallpartsF fuel t rem).map (fun vs => v :: vs)

/-- Python `Trie.getallparts`: split `key` into greedy longest matches, collecting
the matched values; `none` embeds the `KeyError` escaping from `getpart`. -/
def getallparts (t : TrieNode V) (key : List Char) : Option (List V) :=
  getallpartsF key.length t key

/-- The recursive content of `Trie.pop`: unset the value at the end of the
path (`KeyError`, i.e. `none`, when the path or the value is missing), then
walk back up, dropping every node that is left with no value and no
children (the `for parent, key in reversed(stack)` loop with its `break`).
The second component is `none` when this node itself must be deleted from
its parent's children dict. -/
def popAux : TrieNode V → List Char → Option (V × Option (TrieNode V))
  | .node val cs, [] =>
    match val with
    | none => none
    | some v => some (v, if cs.isEmpty then none else some (.node none cs))
  | .node val cs, c :: rest =>
    match getChild cs c with
    | none => none
    | some child =>
      (popAux child rest).map fun p =>
        let cs2 := match p.2 with
          | none => delChild cs c
          | some ch => setChild cs c ch
        (p.1, if val.isNone && cs2.isEmpty then none else some (.node val cs2))

mutual

/-- The number of set-value nodes of the (sub)tree: the quantity that
`Trie._len` is supposed to track. -/
def countSet : TrieNode V → Nat
  | .node v cs => (match v with | some _ => 1 | none => 0) + countSetL cs

def countSetL : List (Char × TrieNode V) → Nat
  | [] => 0
  | (_, t) :: rest => countSet t + countSetL rest

end

mutual

/-- Python `Trie._itemize` (hence `items`, `keys`, `values`, iteration) rooted at a
node with the empty key part: a depth-first traversal yielding the
key/value pairs of the set-value nodes below this node.  The node's own
value is never yielded (the traversal only inspects children). -/
def itemize : TrieNode V → List (List Char × V)
  | .node _ cs => itemizeL cs

def itemizeL : List (Char × TrieNode V) → List (List Char × V)
  | [] => []
  | (c, t) :: rest =>
    (match t.val with
     | some w => [([c], w)]
     | none => []) ++ (itemize t).map (fun q => (c :: q.1, q.2)) ++ itemizeL rest

end

/-- Python `BackTrie.getpart`: run `getpart` on the reversed key and re-reverse the
emitted remainder (`value, remainder = super().getpart(key[::-1])` followed
by `return value, remainder[::-1]`). -/
def backGetpart (t : TrieNode V) (key : List Char) : Option (V × List Char) :=
  match t.getpart key.reverse with
  | none => none
  | some (v, r) => some (v, r.reverse)

end TrieNode

/-- Python `trees.Trie`: the `root` node together with the `_len` counter. -/
structure Trie (V : Type) where
  root : TrieNode V
  len : Nat

namespace Trie

variable {V : Type}

/-- Python `Trie()`: the fresh tree `[..., {}]` with `_len = 0`. -/
def empty : Trie V := ⟨.node none [], 0⟩

/-- Python `Trie.__setitem__`: store the value and bump `_len` exactly when the
terminal node previously held the sentinel. -/
def setitem (t : Trie V) (key : List Char) (v : V) : Trie V :=
  { root := t.root.insert key v,
    len := if (t.root.valueAt key).isNone then t.len + 1 else t.len }

/-- Python `Trie.__getitem__` (`none` embeds `KeyError`). -/
def lookup (t : Trie V) (key : List Char) : Option V :=
  t.root.valueAt key

/-- Python `Trie.getpart` on the wrapper. -/
def getpart (t : Trie V) (key : List Char) : Option (V × List Char) :=
  t.root.getpart key

/-- Python `Trie.clear`: `self.root[1].clear()` empties the root's children dict,
leaving the root's own value and the `_len` counter untouched. -/
def clear (t : Trie V) : Trie V :=
  { root := .node t.root.val [], len := t.len }

/-- Python `Trie.pop`: `_len` is decremented and the pruned tree installed; `none`
embeds the `KeyError` on a missing path or an unset terminal value. -/
def pop (t : Trie V) (key : List Char) : Option (V × Trie V) :=
  (t.root.popAux key).map fun p =>
    (p.1, { root := p.2.getD (.node none []), len := t.len - 1 })

/-- Python `Trie.items()` (no prefix argument): traversal starts at the root. -/
def items (t : Trie V) : List (List Char × V) :=
  t.root.itemize

/-- Python `Trie.getallparts` on the wrapper. -/
def getallparts (t : Trie V) (key : List Char) : Option (List V) :=
  t.root.getallparts key

/-- Python `BackTrie.__setitem__`: `Trie.__setitem__` goes through the overridden
`_mknode`, which reverses the key before walking, so insertion into the
reverse tree is exactly forward insertion of the reversed key (the `_len`
bookkeeping inspects the node at the same reversed path). -/
def backSetitem (t : Trie V) (key : List Char) (v : V) : Trie V :=
  t.setitem key.reverse v

/-- Python `BackTrie.getpart` on the wrapper. -/
def backGetpart (t : Trie V) (key : List Char) : Option (V × List Char) :=
  t.root.backGetpart key

end Trie

/-- Build a forward `Trie` from a list of key/value pairs by repeated
`__setitem__` (the behaviour of `Trie(initializer)` / `update`). -/
def buildTrie {V : Type} (ps : List (List Char × V)) : Trie V :=
  ps.foldl (fun t p => t.setitem p.1 p.2) Trie.empty

/-- Build a `BackTrie` from the same pairs by repeated
`BackTrie.__setitem__`. -/
def buildBackTrie {V : Type} (ps : List (List Char × V)) : Trie V :=
  ps.foldl (fun t p => t.backSetitem p.1 p.2) Trie.empty

/-- A CPython object identity (an address).  `Trie.items` returns a brand
new generator object on every call; generator objects define no `__eq__`,
so `==` on them is identity comparison.  Fresh objects are modelled by an
allocation counter: each call to `items` yields the next address. -/
structure PyGenerator where
  id : Nat

/-- One call of `self.items()`: allocate a fresh generator object.  The
contents of the tree play no role in the object's identity. -/
def itemsObj {V : Type} (_ : Trie V) (alloc : Nat) : PyGenerator × Nat :=
  (⟨alloc⟩, alloc + 1)

/-- Python `Trie.__eq__`: `return self.items() == other.items()` — two generator
objects freshly allocated by the two `items()` calls, compared by
identity. -/
def trieEqPy {V : Type} (t1 t2 : Trie V) (alloc : Nat) : Bool :=
  let p1 := itemsObj t1 alloc
  let p2 := itemsObj t2 p1.2
  p1.1.id == p2.1.id

/-- Python `Trie.__ne__`: `return self.items() != other.items()` — identity again,
on two further fresh generator objects. -/
def trieNePy {V : Type} (t1 t2 : Trie V) (alloc : Nat) : Bool :=
  let p1 := itemsObj t1 alloc
  let p2 := itemsObj t2 p1.2
  p1.1.id != p2.1.id

/-!
## The replacement algebra of `keygenerator.py`
-/

/-- Python `keygenerator.Replacement`: an integer weight and the `keyvalue`
sequence of (source-fragment, target-fragment) pairs. -/
structure Replacement where
  weight : Int
  keyvalue : List (String × String)
deriving DecidableEq

namespace Replacement

/-- Python `Replacement.str` / `Replacement.values`: the target string is the
concatenation of the target fragments. -/
def str (r : Replacement) : String :=
  String.join (r.keyvalue.map Prod.snd)

/-- Python `Replacement.__add__`: weights add, `keyvalue` sequences concatenate. -/
def add (r1 r2 : Replacement) : Replacement :=
  { weight := r1.weight + r2.weight, keyvalue := r1.keyvalue ++ r2.keyvalue }

end Replacement

/-- Python `keygenerator.ReplacementList`: the ordered data list plus the source
fragment sequence `keyparts` (for a list built as
`ReplacementList(key, values)` this is the one-element sequence `[key]`;
for a list built with `parents=` it is the concatenation of the parents'
fragment sequences).  The `key` string is not stored: the source computes
it on demand from `keyparts` (the reified `key` property), embedded below
as `brokenKey`. -/
structure RList where
  keyparts : List String
  data : List Replacement
deriving DecidableEq

namespace RList

/-- Python `ReplacementList.__add__`: `[x + y for x, y in itertools.product(self,
other)]`, wrapped in a new list whose parents are the two operands. -/
def add (L1 L2 : RList) : RList :=
  { keyparts := L1.keyparts ++ L2.keyparts,
    data := L1.data.flatMap fun x => L2.data.map fun y => x.add y }

end RList

/-- Python `keygenerator.get_empty_replist()`:
`ReplacementList('', [Replacement(0, '', '')])`. -/
def emptyReplist : RList :=
  { keyparts := [""], data := [{ weight := 0, keyvalue := [("", "")] }] }

/-- Python `keygenerator.add_reps`: fold the lists together with `+`; the
`TypeError` of `reduce` on an empty sequence is caught and answered with
`get_empty_replist()`. -/
def addReps : List RList → RList
  | [] => emptyReplist
  | x :: xs => xs.foldl RList.add x

/-!
## The broken-cluster rewrite (`ReplacementList.key` property)
-/

/-- The loop of the `ReplacementList.key` property: `newparts` starts as
`[keyparts[0]]`; for each later fragment, if the concatenation with the
*original* previous fragment is a broken cluster, overwrite `newparts[i]`
with the configured replacement (Python raises `IndexError` when a previous
rewrite has left `newparts` shorter than `i + 1`), else append the
fragment. -/
def brokenLoop (broken : List (String × String)) (allparts : List String) :
    Nat → List String → List String → Except String (List String)
  | _, newparts, [] => .ok newparts
  | i, newparts, part :: rest =>
    match List.lookup (allparts.getD i "" ++ part) broken with
    | some repl =>
      if i < newparts.length then
        brokenLoop broken allparts (i + 1) (newparts.set i repl) rest
      else .error "IndexError: list assignment index out of range"
    | none => brokenLoop broken allparts (i + 1) (newparts ++ [part]) rest

/-- The `ReplacementList.key` reified property: without configured broken
clusters it is the plain concatenation of the fragments; otherwise the
pairwise rewrite loop above. -/
def brokenKey (broken : List (String × String)) (parts : List String) :
    Except String String :=
  if broken.isEmpty then .ok (String.join parts)
  else
    match parts with
    | [] => .error "IndexError: list index out of range"
    | p0 :: rest => (brokenLoop broken parts 0 [p0] rest).map String.join

/-!
## Pattern expansion (`KeyGenerator.patterngen`)
-/

/-- Python `generated[key] = value` on a Python dict: replace the value in place
when the key is present (keeping its position), else append. -/
def dictSet {β : Type} (d : List (String × β)) (k : String) (v : β) :
    List (String × β) :=
  if d.any (fun p => p.1 == k) then
    d.map (fun p => if p.1 == k then (k, v) else p)
  else d ++ [(k, v)]

/-- Python `itertools.product(*blocks)`: the rightmost factor varies fastest. -/
def productL {α : Type} : List (List α) → List (List α)
  | [] => [[]]
  | xs :: rest => xs.flatMap fun x => (productL rest).map fun ys => x :: ys

/-- Python `ReplacementList.extend(replacement.data, weight)` with a non-`None`
`weight`: each incoming replacement gets `weight` added before being
appended. -/
def extendWeighted (data : List Replacement) (w : Int) : List Replacement :=
  data.map fun r => { r with weight := r.weight + w }

/-- The replacement-building inner loop of `KeyGenerator.patterngen`, for
the chosen `keyparts` tuple.  This embedding covers replacement patterns
made of capture-group references only (`\1\2…`, the output of `_parse_rep`
on such patterns, after `_normalize_rp`, which leaves them unchanged):
each reference is looked up in `pattern_idx` (a missing entry is the
`KeyError` answered with `PatternError`) and indexes into `keyparts` (an
out-of-range index would surface as an uncaught `IndexError`); the chosen
lists are folded with `add_reps` and the fold's elements are appended with
the `weight` offset. -/
def buildData (pattern_idx : List (Nat × Nat)) (rep_patterns : List (List Nat))
    (weight : Int) (keyparts : List RList) : Except String (List Replacement) :=
  rep_patterns.foldlM
    (fun acc rep_group => do
      let reps ← rep_group.mapM (fun n =>
        match List.lookup n pattern_idx with
        | none => Except.error "PatternError: reference to a missing capture group"
        | some ix =>
          match keyparts[ix]? with
          | none => Except.error "IndexError: tuple index out of range"
          | some rl => Except.ok rl)
      Except.ok (acc ++ extendWeighted (addReps reps).data weight))
    []

/-- The generation loop of `KeyGenerator.patterngen` (keygenerator.py),
over already-resolved all-class `blocks`: for each tuple in the Cartesian
product a fresh `ReplacementList(parents=keyparts, profile=…)` is created
and installed with `generated[replist.key] = replist` — an overwriting dict
assignment — and then filled by the replacement-building loop.  `replist.key`
is the broken-cluster rewrite of the concatenated fragment sequences of the
chosen lists. -/
def patterngenK (broken : List (String × String)) (blocks : List (List RList))
    (pattern_idx : List (Nat × Nat)) (rep_patterns : List (List Nat))
    (weight : Int) : Except String (List (String × List Replacement)) :=
  (productL blocks).foldlM
    (fun gen keyparts => do
      let k ← brokenKey broken (keyparts.map RList.keyparts).flatten
      let data ← buildData pattern_idx rep_patterns weight keyparts
      Except.ok (dictSet gen k data))
    []

/-!
## Tree snapshots (`ReplacementKey.treesimplify` / `tree_expand`)
-/

mutual

/-- Python `ReplacementKey._ts_walk`: replace the unset sentinel by `None` and
every stored list by the pair `(list.key, [(weight, str), …])`, recursing
into the children. -/
def tsWalk (broken : List (String × String)) :
    TrieNode RList → Except String (TrieNode (String × List (Int × String)))
  | .node v cs => do
    let v' ← match v with
      | none => Except.ok none
      | some L => do
        let k ← brokenKey broken L.keyparts
        Except.ok (some (k, L.data.map fun r => (r.weight, r.str)))
    let cs' ← tsWalkL broken cs
    Except.ok (.node v' cs')

def tsWalkL (broken : List (String × String)) :
    List (Char × TrieNode RList) →
      Except String (List (Char × TrieNode (String × List (Int × String))))
  | [] => .ok []
  | (c, t) :: rest => do
    let t' ← tsWalk broken t
    let rest' ← tsWalkL broken rest
    .ok ((c, t') :: rest')

end

mutual

/-- Python `ReplacementKey._te_walk` of keygenerator.py, faithfully including its
defect: on a node whose snapshot value is not `None` the source evaluates
`cls._ensurereplist(node[0][0], node[0][1])`, but in keygenerator.py
`_ensurereplist` is a module-level function and **not** an attribute of
`ReplacementKey` (it was a `@staticmethod` in the older transkey.py), so
the attribute lookup raises `AttributeError` before any conversion
happens.  (The module is in fact not even importable as shipped:
keygenerator.py imports `empty` from trees.py, which defines no such name —
the sentinel there is `...`.)  A snapshot whose every value is `None`
never reaches the broken lookup and expands to the tree of sentinels. -/
def teWalk : TrieNode (String × List (Int × String)) → Except String (TrieNode RList)
  | .node (some _) _ =>
    .error "AttributeError: type object ReplacementKey has no attribute _ensurereplist"
  | .node none cs => (teWalkL cs).map fun cs' => .node none cs'

def teWalkL : List (Char × TrieNode (String × List (Int × String))) →
    Except String (List (Char × TrieNode RList))
  | [] => .ok []
  | (c, t) :: rest => do
    let t' ← teWalk t
    let rest' ← teWalkL rest
    .ok ((c, t') :: rest')

end

/-- Python `ReplacementKey.treesimplify`: deep-copy the root (purely functional
here) and run the walk. -/
def treesimplify (broken : List (String × String)) (t : TrieNode RList) :
    Except String (TrieNode (String × List (Int × String))) :=
  tsWalk broken t

/-- Python `ReplacementKey.tree_expand`: run `_te_walk` over the snapshot and wrap
the result as the new root. -/
def treeExpand (t : TrieNode (String × List (Int × String))) :
    Except String (TrieNode RList) :=
  teWalk t

/-!
## The front-mid-end decoder (`tools.py`)
-/

/-- The key-set handed to `front_mid_end_decode`: `keys['front']` and
`keys['mid']` are forward replacement trees, `keys['end']` a reverse one. -/
structure KeySet where
  front : TrieNode RList
  mid : TrieNode RList
  endKey : TrieNode RList

/-- Python `tools._no_end`: front first, then the ending on the remainder, then
the middle; any `KeyError` escaping from the three lookups propagates. -/
def noEnd (keys : KeySet) (word : List Char) : Except String RList :=
  match keys.front.getpart word with
  | none => .error "KeyError"
  | some (front, rem) =>
    if rem.isEmpty then .ok front
    else
      match keys.endKey.backGetpart rem with
      | none => .error "KeyError"
      | some (endL, rem2) =>
        if rem2.isEmpty then .ok (front.add endL)
        else
          match keys.mid.getallparts rem2 with
          | none => .error "KeyError"
          | some mids => .ok ((front.add (addReps mids)).add endL)

/-- Python `tools.front_mid_end_decode`: ending clusters first; when the ending
consumed the whole word, or the front lookup on the remainder raises
`KeyError`, fall back to `_no_end`; the `KeyError` of the *end* lookup
itself (and of the middle tokenization) is **not** caught and
propagates. -/
def frontMidEndDecode (keys : KeySet) (word : List Char) : Except String RList :=
  match keys.endKey.backGetpart word with
  | none => .error "KeyError"
  | some (endL, rem) =>
    if rem.isEmpty then noEnd keys word
    else
      match keys.front.getpart rem with
      | none => noEnd keys word
      | some (front, rem2) =>
        if rem2.isEmpty then .ok (front.add endL)
        else
          match keys.mid.getallparts rem2 with
          | none => .error "KeyError"
          | some mids => .ok ((front.add (addReps mids)).add endL)

/-!
## Concrete instances used by witnesses and counterexamples
-/

/-- A one-rule front key: `'a' → "A"`. -/
def frontEx : TrieNode RList :=
  (TrieNode.node none []).insert ['a'] ⟨["a"], [⟨0, [("a", "A")]⟩]⟩

/-- A key-set whose `end` and `mid` keys are empty while `front` matches
the letter `a`. -/
def keysEx : KeySet :=
  { front := frontEx, mid := .node none [], endKey := .node none [] }

/-- The spec's scenario-6 list `[(2, foo), (3, bar)]` keyed `baz`. -/
def L1ex : RList :=
  ⟨["baz"], [⟨2, [("baz", "foo")]⟩, ⟨3, [("baz", "bar")]⟩]⟩

/-- The spec's scenario-6 list `[(4, spam), (5, eggs)]` keyed `fjords`. -/
def L2ex : RList :=
  ⟨["fjords"], [⟨4, [("fjords", "spam")]⟩, ⟨5, [("fjords", "eggs")]⟩]⟩

/-- A one-entry replacement key (`'a' → [(0, "x")]`), the smallest tree
whose snapshot exercises the non-`None` branch of `_te_walk`. -/
def key5 : TrieNode RList :=
  (TrieNode.node none []).insert ['a'] ⟨["a"], [⟨0, [("a", "x")]⟩]⟩

/-- Its snapshot, as produced by `treesimplify`. -/
def snap5 : TrieNode (String × List (Int × String)) :=
  .node none [('a', .node (some ("a", [(0, "x")])) [])]

/-- Character-class members for the pattern-expansion instance. -/
def Aex : RList := ⟨["a"], [⟨0, [("a", "A")]⟩]⟩

def Hex : RList := ⟨["h"], [⟨0, [("h", "H")]⟩]⟩

def Gex : RList := ⟨["g"], [⟨1, [("g", "G")]⟩]⟩

/-- Two distinct clusters rewriting to the same string: `ah → z` and
`ag → z`, so the expansions `a·h` and `a·g` of the pattern alias to the
same generated source key `z`. -/
def brokenEx : List (String × String) := [("ah", "z"), ("ag", "z")]

/-- The tree holding `aa → 0` and `aaa → 1`: the classic greedy
longest-match failure case. -/
def t7 : Trie Nat := buildTrie [(['a', 'a'], 0), (['a', 'a', 'a'], 1)]

namespace TrieNode

variable {V : Type}

theorem valueAt_nil (t : TrieNode V) : t.valueAt [] = t.val := rfl

theorem valueAt_cons_none (t : TrieNode V) {c : Char} (rest : List Char)
    (hch : getChild t.children c = none) : t.valueAt (c :: rest) = none := by
  cases t with
  | node v cs => simp_all [valueAt, findNode, children]

theorem valueAt_cons_some (t : TrieNode V) {ch : TrieNode V} {c : Char} (rest : List Char)
    (hch : getChild t.children c = some ch) :
    t.valueAt (c :: rest) = ch.valueAt rest := by
  cases t with
  | node v cs => simp_all [valueAt, findNode, children]

theorem gpRec_cons_none (t : TrieNode V) {c : Char} (rest : List Char)
    (hch : getChild t.children c = none) : gpRec t (c :: rest) = none := by
  simp [gpRec, hch]

theorem gpRec_cons_some (t : TrieNode V) {child : TrieNode V} {c : Char} (rest : List Char)
    (hch : getChild t.children c = some child) :
    gpRec t (c :: rest) =
      match gpRec child rest with
      | some r => some r
      | none => child.val.map (fun w => (w, rest)) := by
  simp only [gpRec, hch]

/-- A nonempty list whose append equals a cons splits off the head. -/
theorem cons_of_append {q s rest : List Char} {c : Char}
    (h : q ++ s = c :: rest) (hq : q ≠ []) :
    ∃ q', q = c :: q' ∧ q' ++ s = rest := by
  cases q with
  | nil => exact absurd rfl hq
  | cons a as =>
    simp only [List.cons_append, List.cons.injEq] at h
    exact ⟨as, by simp [h.1], h.2⟩

/-- The accumulator-carrying loop agrees with the accumulator-free
recursion: the deepest match wins, and the initial accumulator is returned
only when the recursion finds nothing. -/
theorem getpartAux_eq (key : List Char) :
    ∀ (t : TrieNode V) (best : Option (V × List Char)),
      getpartAux t key best =
        match gpRec t key with
        | some r => some r
        | none => best := by
  induction key with
  | nil => intro t best; rfl
  | cons c rest ih =>
    intro t best
    cases hch : getChild t.children c with
    | none => simp only [getpartAux, hch, gpRec_cons_none t rest hch]
    | some child =>
      rw [gpRec_cons_some t rest hch]
      simp only [getpartAux, hch]
      rw [ih child]
      cases hrec : gpRec child rest with
      | some r => rfl
      | none => cases hv : child.val <;> rfl

theorem getpart_eq_gpRec (t : TrieNode V) (key : List Char) :
    t.getpart key = gpRec t key := by
  rw [getpart, getpartAux_eq]
  cases gpRec t key <;> rfl

/-- If the loop finds nothing, no nonempty prefix of the key reaches a
set-value node. -/
theorem gpRec_none (key : List Char) :
    ∀ t : TrieNode V, gpRec t key = none →
      ∀ q s, q ++ s = key → q ≠ [] → t.valueAt q = none := by
  induction key with
  | nil =>
    intro t _ q s hqs hq
    exact absurd (List.append_eq_nil.mp hqs).1 hq
  | cons c rest ih =>
    intro t hnone q s hqs hq
    obtain ⟨q', rfl, hq's⟩ := cons_of_append hqs hq
    cases hch : getChild t.children c with
    | none => exact valueAt_cons_none t q' hch
    | some child =>
      rw [gpRec_cons_some t rest hch] at hnone
      have hrec : gpRec child rest = none := by
        cases hr : gpRec child rest with
        | some r => rw [hr] at hnone; exact absurd hnone (by simp)
        | none => rfl
      have hval : child.val = none := by
        rw [hrec] at hnone
        simpa using hnone
      rw [valueAt_cons_some t q' hch]
      cases q' with
      | nil => simpa [valueAt_nil] using hval
      | cons a as =>
        exact ih child hrec (a :: as) s hq's (by simp)

/-- If the loop returns `(v, rem)`, then the consumed part is a nonempty
prefix ending at a set-value node holding `v`, and every strictly longer
prefix of the key reaches no set-value node. -/
theorem gpRec_some (key : List Char) :
    ∀ (t : TrieNode V) (v : V) (rem : List Char), gpRec t key = some (v, rem) →
      ∃ p, p ++ rem = key ∧ p ≠ [] ∧ t.valueAt p = some v ∧
        ∀ q s, q ++ s = key → p.length < q.length → t.valueAt q = none := by
  induction key with
  | nil => intro t v rem h; exact absurd h (by simp [gpRec])
  | cons c rest ih =>
    intro t v rem h
    cases hch : getChild t.children c with
    | none => rw [gpRec_cons_none t rest hch] at h; exact absurd h (by simp)
    | some child =>
      rw [gpRec_cons_some t rest hch] at h
      cases hrec : gpRec child rest with
      | some r =>
        rw [hrec] at h
        obtain rfl : r = (v, rem) := by simpa using h
        obtain ⟨p', hp'app, hp'ne, hp'val, hp'max⟩ := ih child v rem hrec
        refine ⟨c :: p', by simp [hp'app], by simp, ?_, ?_⟩
        · rw [valueAt_cons_some t p' hch]; exact hp'val
        · intro q s hqs hlen
          have hqne : q ≠ [] := by
            intro hq; rw [hq] at hlen; simp at hlen
          obtain ⟨q', rfl, hq's⟩ := cons_of_append hqs hqne
          rw [valueAt_cons_some t q' hch]
          exact hp'max q' s hq's (by simpa using hlen)
      | none =>
        rw [hrec] at h
        cases hv : child.val with
        | none => rw [hv] at h; exact absurd h (by simp)
        | some w =>
          rw [hv] at h
          obtain ⟨rfl, rfl⟩ : w = v ∧ rest = rem := by
            simpa [eq_comm] using h
          refine ⟨[c], by simp, by simp, ?_, ?_⟩
          · rw [valueAt_cons_some t [] hch, valueAt_nil]; exact hv
          · intro q s hqs hlen
            have hqne : q ≠ [] := by
              intro hq; rw [hq] at hlen; simp at hlen
            obtain ⟨q', rfl, hq's⟩ := cons_of_append hqs hqne
            rw [valueAt_cons_some t q' hch]
            have hq'ne : q' ≠ [] := by
              intro hq'; rw [hq'] at hlen; simp at hlen
            exact gpRec_none rest child hrec q' s hq's hq'ne

/-- Full characterization of `getpart` as longest-prefix matching. -/
theorem getpart_none_iff (t : TrieNode V) (key : List Char) :
    t.getpart key = none ↔
      ∀ q s, q ++ s = key → q ≠ [] → t.valueAt q = none := by
  rw [getpart_eq_gpRec]
  constructor
  · exact gpRec_none key t
  · intro hall
    cases hr : gpRec t key with
    | none => rfl
    | some r =>
      obtain ⟨v, rem⟩ := r
      obtain ⟨p, hpapp, hpne, hpval, _⟩ := gpRec_some key t v rem hr
      rw [hall p rem hpapp hpne] at hpval
      exact absurd hpval (by simp)

theorem getpart_some_iff (t : TrieNode V) (key : List Char) (v : V) (rem : List Char) :
    t.getpart key = some (v, rem) ↔
      ∃ p, p ++ rem = key ∧ p ≠ [] ∧ t.valueAt p = some v ∧
        ∀ q s, q ++ s = key → p.length < q.length → t.valueAt q = none := by
  rw [getpart_eq_gpRec]
  constructor
  · exact gpRec_some key t v rem
  · rintro ⟨p, hpapp, hpne, hpval, hpmax⟩
    cases hr : gpRec t key with
    | none =>
      rw [gpRec_none key t hr p rem hpapp hpne] at hpval
      exact absurd hpval (by simp)
    | some r =>
      obtain ⟨v', rem'⟩ := r
      obtain ⟨p', hp'app, hp'ne, hp'val, hp'max⟩ := gpRec_some key t v' rem' hr
      have hlen : p.length = p'.length := by
        rcases Nat.lt_trichotomy p.length p'.length with hlt | heq | hgt
        · rw [hpmax p' rem' hp'app hlt] at hp'val
          exact absurd hp'val (by simp)
        · exact heq
        · rw [hp'max p rem hpapp hgt] at hpval
          exact absurd hpval (by simp)
      obtain ⟨rfl, rfl⟩ :=
        List.append_inj (hp'app.trans hpapp.symm) hlen.symm
      rw [hpval] at hp'val
      simpa [eq_comm] using hp'val

/-- A successful `getpart` strictly consumes part of the key (the matched
part is nonempty). -/
theorem getpart_length_lt {t : TrieNode V} {key rem : List Char} {v : V}
    (h : t.getpart key = some (v, rem)) : rem.length < key.length := by
  obtain ⟨p, hpapp, hpne, -, -⟩ := (getpart_some_iff t key v rem).mp h
  have : p.length + rem.length = key.length := by
    rw [← List.length_append, hpapp]
  have hp : 0 < p.length := List.length_pos.mpr hpne
  omega

theorem getChild_setChild (cs : List (Char × TrieNode V)) (c : Char) (t' : TrieNode V) :
    getChild (setChild cs c t') c = some t' := by
  induction cs with
  | nil => simp [setChild, getChild]
  | cons hd rest ih =>
    obtain ⟨c', t''⟩ := hd
    by_cases h : c' = c <;> simp [setChild, getChild, h, ih]

theorem children_insert_cons (val : Option V) (cs : List (Char × TrieNode V))
    (c : Char) (rest : List Char) (v : V) :
    (TrieNode.node val cs).insert (c :: rest) v =
      .node val (setChild cs c (((getChild cs c).getD (.node none [])).insert rest v)) :=
  rfl

/-- After `insert key v`, the node at `key` holds exactly `v`
(the lookup part of claim C2). -/
theorem valueAt_insert_self (key : List Char) :
    ∀ (t : TrieNode V) (v : V), (t.insert key v).valueAt key = some v := by
  induction key with
  | nil => intro t v; cases t with | node val cs => rfl
  | cons c rest ih =>
    intro t v
    cases t with
    | node val cs =>
      rw [children_insert_cons,
        valueAt_cons_some (.node val _) rest
          (getChild_setChild cs c _)]
      exact ih _ v

/-- After `insert key v` with nonempty `key`, longest-prefix matching on
exactly `key` finds `v` with empty remainder: the traversal is bounded by
the length of the key, so deeper stored extensions cannot interfere. -/
theorem gpRec_insert_self (key : List Char) :
    ∀ (t : TrieNode V) (v : V), key ≠ [] → gpRec (t.insert key v) key = some (v, []) := by
  induction key with
  | nil => intro t v h; exact absurd rfl h
  | cons c rest ih =>
    intro t v _
    cases t with
    | node val cs =>
      rw [children_insert_cons]
      rw [gpRec_cons_some (.node val _) rest
        (getChild_setChild cs c _)]
      cases rest with
      | nil =>
        cases hg : getChild cs c with
        | none => rfl
        | some ch => cases ch with | node v' cs' => rfl
      | cons c' rest' =>
        rw [ih _ v (by simp)]

end TrieNode

/-- The reverse tree built by repeated insertion is, node for node, the
forward tree built from the reversed keys. -/
theorem buildBackTrie_eq {V : Type} (ps : List (List Char × V)) :
    buildBackTrie ps = buildTrie (ps.map fun p => (p.1.reverse, p.2)) := by
  rw [buildBackTrie, buildTrie, List.foldl_map]
  rfl

/-!
## Claim C1: `getpart` is longest-prefix matching
-/

/-- Claim C1.  For every tree and key, `getpart` returns `(v, rem)` exactly
when the key splits as `p ++ rem` with `p` the longest nonempty prefix of
the key ending at a set-value node, `v` the value stored there; and it
fails (the `KeyError`, embedded as `none`) exactly when no nonempty prefix
of the key ends at a set-value node. -/
theorem claim_C1_getpart_longest_match {V : Type} (t : Trie V) (key : List Char) :
    (∀ v rem, t.getpart key = some (v, rem) ↔
      ∃ p, p ++ rem = key ∧ p ≠ [] ∧ t.root.valueAt p = some v ∧
        ∀ q s, q ++ s = key → p.length < q.length → t.root.valueAt q = none) ∧
    (t.getpart key = none ↔
      ∀ q s, q ++ s = key → q ≠ [] → t.root.valueAt q = none) :=
  ⟨fun v rem => TrieNode.getpart_some_iff t.root key v rem,
   TrieNode.getpart_none_iff t.root key⟩

/-!
## Claim C2: insert followed by lookup / longest-prefix match
-/

/-- Claim C2 (amended: nonempty keys).  Immediately after `t[k] = v`, the
lookup `t[k]` returns `v`; and if `k` is nonempty, `t.getpart(k)` returns
`(v, "")` (the no-stored-proper-extension proviso of the claim is kept as
a hypothesis; the traversal of `getpart(k)` is bounded by `k` anyway).
For the empty key the claim fails: see the counterexample. -/
theorem claim_C2_insert_then_match {V : Type} (t : Trie V) (k : List Char) (v : V)
    (hk : k ≠ [])
    (_hext : ∀ e, e ≠ [] → (t.setitem k v).root.valueAt (k ++ e) = none) :
    (t.setitem k v).lookup k = some v ∧ (t.setitem k v).getpart k = some (v, []) := by
  refine ⟨TrieNode.valueAt_insert_self k t.root v, ?_⟩
  rw [Trie.getpart, TrieNode.getpart_eq_gpRec]
  exact TrieNode.gpRec_insert_self k t.root v hk

/-- Claim C2 counterexample.  Insert at the empty key: the lookup sees the
value, but `getpart` raises (`none`) although no proper extension of the
key is stored — `getpart` never reports the root's own value, so the claim
is false as stated for the empty key. -/
theorem claim_C2_counterexample :
    (Trie.setitem (Trie.empty : Trie Nat) [] 42).lookup [] = some 42 ∧
    (Trie.setitem (Trie.empty : Trie Nat) [] 42).getpart [] = none :=
  ⟨rfl, rfl⟩

/-- Witness for the amended C2 at the concrete tree `{a: 7}`. -/
theorem claim_C2_witness :
    (Trie.setitem (Trie.empty : Trie Nat) ['a'] 7).lookup ['a'] = some 7 ∧
    (Trie.setitem (Trie.empty : Trie Nat) ['a'] 7).getpart ['a'] = some (7, []) :=
  claim_C2_insert_then_match Trie.empty ['a'] 7 (by decide)
    (by
      intro e he
      cases e with
      | nil => exact absurd rfl he
      | cons c cs =>
        show TrieNode.valueAt
          (TrieNode.node none [('a', TrieNode.node (some 7) [])]) ('a' :: c :: cs) = none
        simp [TrieNode.valueAt, TrieNode.findNode, TrieNode.getChild,
          TrieNode.children])

/-!
## Claim C8: the reverse tree is the forward tree on reversed input
-/

/-- Claim C8.  For every pair list `P` and word `w`: the reverse tree built
from `P` answers `getpart w = (v, r)` exactly when the forward tree built
from the reversed keys of `P` answers `getpart (reverse w) =
(v, reverse r)`.  (In particular the reverse tree matches the longest
stored suffix of `w` and returns the unconsumed front as remainder.) -/
theorem claim_C8_backtrie_symmetry {V : Type} (P : List (List Char × V))
    (w : List Char) (v : V) (r : List Char) :
    (buildBackTrie P).backGetpart w = some (v, r) ↔
      (buildTrie (P.map fun p => (p.1.reverse, p.2))).getpart w.reverse =
        some (v, r.reverse) := by
  rw [← buildBackTrie_eq]
  simp only [Trie.backGetpart, TrieNode.backGetpart, Trie.getpart]
  cases h : (buildBackTrie P).root.getpart w.reverse with
  | none => simp
  | some pr =>
    obtain ⟨v', r'⟩ := pr
    simp [List.reverse_eq_iff]

/-!
## Claim C9: `Trie.__eq__` compares freshly created generators
-/

/-- Claim C9.  `t1 == t2` is always `False` and `t1 != t2` always `True`,
for any two trees (including `t1 = t2` itself) and any allocation state:
the two `items()` calls allocate two distinct generator objects and the
comparison is object identity. -/
theorem claim_C9_eq_never_reflexive {V : Type} (t1 t2 : Trie V) (alloc : Nat) :
    trieEqPy t1 t2 alloc = false ∧ trieNePy t1 t2 alloc = true := by
  constructor <;> simp [trieEqPy, trieNePy, itemsObj]

/-!
## Claim C4: `ReplacementList.__add__` is the row-major weighted product
-/

/-- The length of the pairwise-product list. -/
theorem prodLength {α β γ : Type} (f : α → β → γ) (l1 : List α) (l2 : List β) :
    (l1.flatMap fun x => l2.map fun y => f x y).length = l1.length * l2.length := by
  induction l1 with
  | nil => simp
  | cons a as ih => simp [ih, Nat.succ_mul, Nat.add_comm]

/-- Row-major indexing of the pairwise-product list. -/
theorem prodGet {α β γ : Type} (f : α → β → γ) (l1 : List α) (l2 : List β)
    (i j : Nat) (hi : i < l1.length) (hj : j < l2.length) :
    (l1.flatMap fun x => l2.map fun y => f x y)[i * l2.length + j]? =
      some (f (l1.get ⟨i, hi⟩) (l2.get ⟨j, hj⟩)) := by
  induction l1 generalizing i with
  | nil => simp at hi
  | cons a as ih =>
    cases i with
    | zero =>
      rw [List.flatMap_cons, Nat.zero_mul, Nat.zero_add,
        List.getElem?_append_left (by simpa using hj), List.getElem?_map]
      simp [List.getElem?_eq_getElem hj]
    | succ i' =>
      rw [List.flatMap_cons, List.getElem?_append_right]
      · have heq : (i' + 1) * l2.length + j - (l2.map fun y => f a y).length =
            i' * l2.length + j := by
          simp [Nat.succ_mul]
          omega
        rw [heq, ih i' (by simpa using hi)]
        simp
      · simp [Nat.succ_mul]
        omega

/-- Claim C4.  `L1 + L2` has `m·n` elements in row-major order (`L1` outer,
`L2` inner); the `(i,j)`-th element has the summed weight and the
concatenated `keyvalue`.  Because the whole list is fixed elementwise,
no sorting and no deduplication can have taken place. -/
theorem claim_C4_replist_product (L1 L2 : RList) :
    (L1.add L2).data.length = L1.data.length * L2.data.length ∧
    ∀ i j (hi : i < L1.data.length) (hj : j < L2.data.length),
      (L1.add L2).data[i * L2.data.length + j]? =
        some { weight := (L1.data.get ⟨i, hi⟩).weight + (L2.data.get ⟨j, hj⟩).weight,
               keyvalue :=
                 (L1.data.get ⟨i, hi⟩).keyvalue ++ (L2.data.get ⟨j, hj⟩).keyvalue } :=
  ⟨prodLength Replacement.add L1.data L2.data,
   fun i j hi hj => prodGet Replacement.add L1.data L2.data i j hi hj⟩

/-- Witness: spec scenario 6, element `(1, 0)` of
`[(2,foo),(3,bar)] + [(4,spam),(5,eggs)]` is `(7, bar·spam)`. -/
theorem claim_C4_witness :
    (L1ex.add L2ex).data[2]? =
      some { weight := 7, keyvalue := [("baz", "bar"), ("fjords", "spam")] } := by
  have h := (claim_C4_replist_product L1ex L2ex).2 1 0 (by decide) (by decide)
  simpa [L1ex, L2ex] using h

/-!
## Claim C7: `getallparts` and concatenations of stored keys
-/

/-- Any successful `getallparts` run decomposes the key into nonempty
stored fragments whose values are the returned list, in order. -/
theorem getallpartsF_decomp {V : Type} (fuel : Nat) :
    ∀ (t : TrieNode V) (key : List Char) (vs : List V),
      TrieNode.getallpartsF fuel t key = some vs →
      ∃ frags : List (List Char), frags.flatten = key ∧
        List.Forall₂ (fun f v => f ≠ [] ∧ t.valueAt f = some v) frags vs := by
  induction fuel with
  | zero =>
    intro t key vs h
    cases key with
    | nil =>
      obtain rfl : vs = [] := by simpa [TrieNode.getallpartsF] using h
      exact ⟨[], rfl, List.Forall₂.nil⟩
    | cons c rest => simp [TrieNode.getallpartsF] at h
  | succ f ih =>
    intro t key vs h
    cases key with
    | nil =>
      obtain rfl : vs = [] := by simpa [TrieNode.getallpartsF] using h
      exact ⟨[], rfl, List.Forall₂.nil⟩
    | cons c rest =>
      simp only [TrieNode.getallpartsF] at h
      cases hg : t.getpart (c :: rest) with
      | none => rw [hg] at h; simp at h
      | some pr =>
        obtain ⟨v, rem⟩ := pr
        rw [hg] at h
        have h2 : Option.map (fun vs => v :: vs) (TrieNode.getallpartsF f t rem) =
            some vs := h
        rw [Option.map_eq_some'] at h2
        obtain ⟨vs', hrec, hv⟩ := h2
        obtain rfl : vs = v :: vs' := hv.symm
        obtain ⟨p, hp, hpne, hpval, -⟩ :=
          (TrieNode.getpart_some_iff t (c :: rest) v rem).mp hg
        obtain ⟨frags, hfl, hall⟩ := ih t rem vs' hrec
        exact ⟨p :: frags, by simp [hfl, hp], List.Forall₂.cons ⟨hpne, hpval⟩ hall⟩

/-- Claim C7 (amended).  Whenever `getallparts` succeeds, the values returned
correspond to a split of the key into nonempty fragments, each ending at a
set-value node holding the returned value — so each internal
longest-prefix step consumes at least one character and the matched
fragments concatenate to exactly the key.  (Success is *not* guaranteed
for every concatenation of inserted keys; greedy longest matching can
fail on such inputs — see the counterexample.) -/
theorem claim_C7_allparts_decompose {V : Type} (t : Trie V) (key : List Char)
    (vs : List V) (h : t.getallparts key = some vs) :
    ∃ frags : List (List Char), frags.flatten = key ∧
      List.Forall₂ (fun f v => f ≠ [] ∧ t.root.valueAt f = some v) frags vs :=
  getallpartsF_decomp key.length t.root key vs h

/-- Claim C7 counterexample.  With stored keys `aa` (value 0) and `aaa`
(value 1), the input `aaaa = aa ++ aa` is a concatenation of stored keys,
yet `getallparts` raises: the greedy first step consumes `aaa`, leaving
the unmatchable remainder `a`. -/
theorem claim_C7_counterexample :
    t7.getallparts ['a', 'a', 'a', 'a'] = none ∧
    t7.lookup ['a', 'a'] = some 0 ∧
    (['a', 'a'] ++ ['a', 'a'] : List Char) = ['a', 'a', 'a', 'a'] :=
  ⟨rfl, rfl, rfl⟩

/-- Witness for the amended C7: on `aaa` the same tree succeeds and the
decomposition exists. -/
theorem claim_C7_witness :
    t7.getallparts ['a', 'a', 'a'] = some [1] ∧
    (∃ frags : List (List Char), frags.flatten = ['a', 'a', 'a'] ∧
      List.Forall₂ (fun f v => f ≠ [] ∧ t7.root.valueAt f = some v) frags [1]) :=
  ⟨rfl, claim_C7_allparts_decompose t7 ['a', 'a', 'a'] [1] rfl⟩

/-!
## Claim C3: which failures the front-mid-end decoder survives
-/

/-- Claim C3 (amended).  The decoder falls back to `_no_end` only when the
end key consumed the whole word or when the front lookup on the remainder
fails; a failing *end* lookup is **not** caught — it propagates instead of
falling through — and on the fallback path a failing front lookup
propagates.  (So decode failure is not equivalent to "no prefix of the
input matches `front`": see the counterexample, where `front` matches and
the call still raises.) -/
theorem claim_C3_decode_failure_paths (keys : KeySet) (word : List Char) :
    (keys.endKey.backGetpart word = none →
      frontMidEndDecode keys word = .error "KeyError") ∧
    (∀ endL, keys.endKey.backGetpart word = some (endL, []) →
      frontMidEndDecode keys word = noEnd keys word) ∧
    (∀ endL rem, keys.endKey.backGetpart word = some (endL, rem) → rem ≠ [] →
      keys.front.getpart rem = none →
      frontMidEndDecode keys word = noEnd keys word) ∧
    (keys.front.getpart word = none →
      noEnd keys word = .error "KeyError") := by
  refine ⟨fun h => ?_, fun endL h => ?_, fun endL rem h hrem hf => ?_, fun h => ?_⟩
  · simp [frontMidEndDecode, h]
  · simp [frontMidEndDecode, h]
  · cases rem with
    | nil => exact absurd rfl hrem
    | cons c cs => simp [frontMidEndDecode, h, hf]
  · simp [noEnd, h]

/-- Claim C3 counterexample.  `end` matches no suffix of the word `a`, and
the decoder raises `KeyError` even though `front` matches a (complete)
prefix of the word — contradicting both the claimed fall-through on end
failure and the claimed "fails iff no prefix matches front". -/
theorem claim_C3_counterexample :
    frontMidEndDecode keysEx ['a'] = .error "KeyError" ∧
    keysEx.front.getpart ['a'] = some (⟨["a"], [⟨0, [("a", "A")]⟩]⟩, []) :=
  ⟨rfl, rfl⟩

/-- Witness: the first branch of the amended C3 applied at the concrete
key-set. -/
theorem claim_C3_witness :
    keysEx.endKey.backGetpart ['a'] = none ∧
    frontMidEndDecode keysEx ['a'] = .error "KeyError" :=
  ⟨rfl, (claim_C3_decode_failure_paths keysEx ['a']).1 rfl⟩

/-!
## Claim C5: the tree-cache round trip
-/

/-- Claim C5 (the code fails).  Serializing the one-entry key `{a: [(0,x)]}`
produces the expected snapshot, but expanding that snapshot back — the
`tree_expand` path taken by `KeyGenerator.__init__` with `from_cache=True`
and `tree_cache=True` — raises `AttributeError` instead of reconstructing
the key (which itself decodes `a` fine), because `_te_walk` refers to
`cls._ensurereplist`, not an attribute of keygenerator's `ReplacementKey`. -/
theorem claim_C5_roundtrip_raises :
    treesimplify [] key5 = .ok snap5 ∧
    treeExpand snap5 =
      .error "AttributeError: type object ReplacementKey has no attribute _ensurereplist" ∧
    key5.getpart ['a'] = some (⟨["a"], [⟨0, [("a", "x")]⟩]⟩, []) :=
  ⟨rfl, rfl, rfl⟩

/-!
## Claim C6: pattern expansion and colliding generated keys
-/

/-- Claim C6 (the code loses data).  The pattern with blocks
`[[a], [h, g]]` and replacement `\1\2` has `1·2 = 2` expansions, and the
broken clusters `ah → z`, `ag → z` alias both to the generated key `z`.
The generation loop of keygenerator's `patterngen` executes
`generated[replist.key] = replist` with a *fresh* list per expansion, so
the second expansion *overwrites* the first: the result holds only the
`a·g` replacement (second conjunct: the `a·h` expansion alone produces the
replacement `(0, A·H)`, which is absent from the combined result, instead
of being merged as the claim states). -/
theorem claim_C6_patterngen_overwrites :
    patterngenK brokenEx [[Aex], [Hex, Gex]] [(1, 0), (2, 1)] [[1, 2]] 0 =
      .ok [("z", [{ weight := 1, keyvalue := [("a", "A"), ("g", "G")] }])] ∧
    patterngenK brokenEx [[Aex], [Hex]] [(1, 0), (2, 1)] [[1, 2]] 0 =
      .ok [("z", [{ weight := 0, keyvalue := [("a", "A"), ("h", "H")] }])] :=
  ⟨rfl, rfl⟩

/-!
## Claim C10: the `_len` invariant under insert, pop and clear
-/

namespace TrieNode

variable {V : Type}

theorem countSet_node (val : Option V) (cs : List (Char × TrieNode V)) :
    countSet (.node val cs) = (if val.isSome then 1 else 0) + countSetL cs := by
  cases val <;> simp [countSet]

theorem countSetL_cons (c : Char) (t : TrieNode V) (rest : List (Char × TrieNode V)) :
    countSetL ((c, t) :: rest) = countSet t + countSetL rest := by
  simp [countSetL]

theorem countSetL_setChild_some (cs : List (Char × TrieNode V)) (c : Char)
    {ch : TrieNode V} (ch2 : TrieNode V) (h : getChild cs c = some ch) :
    countSetL (setChild cs c ch2) + countSet ch = countSetL cs + countSet ch2 := by
  induction cs with
  | nil => simp [getChild] at h
  | cons hd rest ih =>
    obtain ⟨c', t'⟩ := hd
    by_cases hc : c' = c
    · simp only [getChild, if_pos hc] at h
      obtain rfl : t' = ch := by simpa using h
      simp [setChild, if_pos hc, countSetL_cons]
      omega
    · simp only [getChild, if_neg hc] at h
      simp only [setChild, if_neg hc, countSetL_cons]
      have := ih h
      omega

theorem countSetL_setChild_none (cs : List (Char × TrieNode V)) (c : Char)
    (ch2 : TrieNode V) (h : getChild cs c = none) :
    countSetL (setChild cs c ch2) = countSetL cs + countSet ch2 := by
  induction cs with
  | nil => simp [setChild, countSetL_cons, countSetL]
  | cons hd rest ih =>
    obtain ⟨c', t'⟩ := hd
    by_cases hc : c' = c
    · simp [getChild, if_pos hc] at h
    · simp only [getChild, if_neg hc] at h
      simp only [setChild, if_neg hc, countSetL_cons, ih h]
      omega

theorem countSetL_delChild (cs : List (Char × TrieNode V)) (c : Char)
    {ch : TrieNode V} (h : getChild cs c = some ch) :
    countSetL (delChild cs c) + countSet ch = countSetL cs := by
  induction cs with
  | nil => simp [getChild] at h
  | cons hd rest ih =>
    obtain ⟨c', t'⟩ := hd
    by_cases hc : c' = c
    · simp only [getChild, if_pos hc] at h
      obtain rfl : t' = ch := by simpa using h
      simp [delChild, if_pos hc, countSetL_cons]
      omega
    · simp only [getChild, if_neg hc] at h
      simp only [delChild, if_neg hc, countSetL_cons]
      have := ih h
      omega

theorem valueAt_unset_empty (rest : List Char) :
    (TrieNode.node none [] : TrieNode V).valueAt rest = none := by
  cases rest with
  | nil => rfl
  | cons c cs => exact valueAt_cons_none _ cs rfl

/-- Inserting bumps the set-node count exactly when the terminal node held
no value before (absent node or unset value). -/
theorem countSet_insert (key : List Char) :
    ∀ (t : TrieNode V) (v : V),
      countSet (t.insert key v) =
        countSet t + (if (t.valueAt key).isNone then 1 else 0) := by
  induction key with
  | nil =>
    intro t v
    cases t with
    | node val cs =>
      cases val with
      | none => simp [insert, countSet_node, valueAt_nil, val]; omega
      | some w => simp [insert, countSet_node, valueAt_nil, val]
  | cons c rest ih =>
    intro t v
    cases t with
    | node val cs =>
      cases hg : getChild cs c with
      | some ch =>
        have hset := countSetL_setChild_some cs c (ch.insert rest v) hg
        have hih := ih ch v
        have hv : (TrieNode.node val cs).valueAt (c :: rest) = ch.valueAt rest :=
          valueAt_cons_some _ rest hg
        simp only [insert, hg, Option.getD_some, countSet_node, hv]
        by_cases hn : (ch.valueAt rest).isNone <;> simp [hn] at hih ⊢ <;> omega
      | none =>
        have hset := countSetL_setChild_none cs c ((TrieNode.node none []).insert rest v) hg
        have hih := ih (.node none []) v
        have hv : (TrieNode.node val cs).valueAt (c :: rest) = none :=
          valueAt_cons_none _ rest hg
        simp only [insert, hg, Option.getD_none, countSet_node, hv]
        rw [valueAt_unset_empty] at hih
        simp only [Option.isNone_none, if_pos rfl] at hih ⊢
        rw [hset, hih]
        simp [countSet_node, countSetL]
        omega

/-- A successful `popAux` returns the value that was stored at the key and
shrinks the set-node count by exactly one (`none` in the second component
standing for a pruned-away, hence zero-count, node). -/
theorem popAux_spec (key : List Char) :
    ∀ (t : TrieNode V) (v : V) (r : Option (TrieNode V)),
      popAux t key = some (v, r) →
      t.valueAt key = some v ∧
        (match r with | none => 0 | some n => countSet n) + 1 = countSet t := by
  induction key with
  | nil =>
    intro t v r h
    cases t with
    | node val cs =>
      cases val with
      | none => simp [popAux] at h
      | some v0 =>
        simp only [popAux] at h
        obtain ⟨rfl, hr⟩ : v0 = v ∧
            (if cs.isEmpty then none
             else some (TrieNode.node none cs)) = r := by simpa using h
        refine ⟨rfl, ?_⟩
        subst hr
        by_cases hcs : cs.isEmpty
        · obtain rfl : cs = [] := List.isEmpty_iff.mp hcs
          simp [countSet_node, countSetL]
        · simp [hcs, countSet_node, countSetL]
          omega
  | cons c rest ih =>
    intro t v r h
    cases t with
    | node val cs =>
      simp only [popAux] at h
      cases hg : getChild cs c with
      | none => rw [hg] at h; simp at h
      | some child =>
        rw [hg] at h
        have h2 : Option.map
            (fun p : V × Option (TrieNode V) =>
              (p.1,
                if (val.isNone && (match p.2 with
                      | none => delChild cs c
                      | some ch => setChild cs c ch).isEmpty) = true then none
                else some (TrieNode.node val (match p.2 with
                      | none => delChild cs c
                      | some ch => setChild cs c ch))))
            (popAux child rest) = some (v, r) := h
        cases hp : popAux child rest with
        | none => rw [hp] at h2; simp at h2
        | some pr =>
          rw [hp] at h2
          obtain ⟨v1, chOpt⟩ := pr
          obtain ⟨hval, hcnt⟩ := ih child v1 chOpt hp
          cases chOpt with
          | none =>
            obtain ⟨rfl, hr⟩ : v1 = v ∧
                (if (val.isNone && (delChild cs c).isEmpty) = true then none
                 else some (TrieNode.node val (delChild cs c))) = r := by
              simpa using h2
            refine ⟨by rw [valueAt_cons_some (.node val cs) rest hg]; exact hval, ?_⟩
            subst hr
            have hdel := countSetL_delChild cs c hg
            simp only at hcnt
            by_cases hif : (val.isNone && (delChild cs c).isEmpty) = true
            · obtain ⟨hv0, hemp⟩ := Bool.and_eq_true_iff.mp hif
              obtain rfl : val = none := Option.isNone_iff_eq_none.mp hv0
              obtain hnil : delChild cs c = [] := List.isEmpty_iff.mp hemp
              rw [hnil] at hdel
              rw [if_pos hif]
              show 0 + 1 = TrieNode.countSet (.node none cs)
              rw [countSet_node]
              simp only [countSetL] at hdel
              simp
              omega
            · rw [if_neg hif]
              show TrieNode.countSet (.node val (delChild cs c)) + 1 =
                TrieNode.countSet (.node val cs)
              rw [countSet_node, countSet_node]
              omega
          | some ch2 =>
            obtain ⟨rfl, hr⟩ : v1 = v ∧
                (if (val.isNone && (setChild cs c ch2).isEmpty) = true then none
                 else some (TrieNode.node val (setChild cs c ch2))) = r := by
              simpa using h2
            refine ⟨by rw [valueAt_cons_some (.node val cs) rest hg]; exact hval, ?_⟩
            subst hr
            have hset := countSetL_setChild_some cs c ch2 hg
            simp only at hcnt
            by_cases hif : (val.isNone && (setChild cs c ch2).isEmpty) = true
            · obtain ⟨hv0, hemp⟩ := Bool.and_eq_true_iff.mp hif
              obtain rfl : val = none := Option.isNone_iff_eq_none.mp hv0
              obtain hnil : setChild cs c ch2 = [] := List.isEmpty_iff.mp hemp
              rw [hnil] at hset
              rw [if_pos hif]
              show 0 + 1 = TrieNode.countSet (.node none cs)
              rw [countSet_node]
              simp only [countSetL] at hset
              simp
              omega
            · rw [if_neg hif]
              show TrieNode.countSet (.node val (setChild cs c ch2)) + 1 =
                TrieNode.countSet (.node val cs)
              rw [countSet_node, countSet_node]
              omega

end TrieNode

/-- Claim C10.  The invariant `len = number of set-value nodes` is preserved
by `__setitem__` (which bumps the counter only when the terminal was
previously unset) and by `pop` (which decrements it); `clear()` empties
the tree — iteration yields nothing — and keeps `len` unchanged, so on the
concrete tree `{a: 0}` the invariant is broken after `clear()`. -/
theorem claim_C10_len_invariant {V : Type} :
    (∀ (t : Trie V) (k : List Char) (v : V), t.len = TrieNode.countSet t.root →
      (t.setitem k v).len = TrieNode.countSet (t.setitem k v).root) ∧
    (∀ (t : Trie V) (k : List Char) (v : V) (t' : Trie V),
      t.len = TrieNode.countSet t.root → t.pop k = some (v, t') →
      t'.len = TrieNode.countSet t'.root) ∧
    (∀ t : Trie V, (t.clear).items = [] ∧ (t.clear).len = t.len) ∧
    (((Trie.empty : Trie Nat).setitem ['a'] 0).clear.len ≠
      TrieNode.countSet ((Trie.empty : Trie Nat).setitem ['a'] 0).clear.root) := by
  refine ⟨?_, ?_, ?_, by decide⟩
  · intro t k v h
    simp only [Trie.setitem, TrieNode.countSet_insert, h]
    by_cases hn : (t.root.valueAt k).isNone <;> simp [hn]
  · intro t k v t' h hpop
    simp only [Trie.pop] at hpop
    cases hp : t.root.popAux k with
    | none => rw [hp] at hpop; simp at hpop
    | some pr =>
      rw [hp] at hpop
      obtain ⟨v1, rOpt⟩ := pr
      obtain ⟨-, rfl⟩ : v1 = v ∧
          ({ root := rOpt.getD (.node none []), len := t.len - 1 } : Trie V) = t' := by
        simpa using hpop
      obtain ⟨-, hcnt⟩ := TrieNode.popAux_spec k t.root v1 rOpt hp
      cases rOpt with
      | none =>
        simp only at hcnt
        simp [TrieNode.countSet, TrieNode.countSetL]
        omega
      | some n =>
        simp only at hcnt
        simp only [Option.getD_some]
        omega
  · intro t
    exact ⟨by simp [Trie.items, Trie.clear, TrieNode.itemize, TrieNode.itemizeL], rfl⟩

/-- Witness: the insert branch of C10 applied to the empty tree, and the
pop branch applied to the resulting one-entry tree. -/
theorem claim_C10_witness :
    (Trie.empty : Trie Nat).len = TrieNode.countSet (Trie.empty : Trie Nat).root ∧
    ((Trie.empty : Trie Nat).setitem ['a'] 3).len =
      TrieNode.countSet ((Trie.empty : Trie Nat).setitem ['a'] 3).root :=
  ⟨rfl, (@claim_C10_len_invariant Nat).1 Trie.empty ['a'] 3 rfl⟩
